import Mathlib

/-!
Verification development for the Project Zomboid server log filter
(src/main.py).  The Python source is shallowly embedded: each Python
function becomes a Lean definition over String / List Char, faithful to
the regular expressions and control flow of the source.  Text read from
a file is modelled after universal-newline decoding, so lines are
separated by the newline character.  The regular expressions of the
source are deterministic (every greedy repetition is followed by a
character that its element class cannot match), so they are embedded as
first-match recursive scanners; this is noted again at each definition.
-/

/-- Characters the Python regex class for whitespace and str.strip
recognise (ASCII range; the source never depends on non-ASCII spaces). -/
def isPySpace (c : Char) : Bool :=
  c = ' ' || c = '\t' || c = '\n' || c = '\r' || c = '\x0b' || c = '\x0c'

/-- Drops a maximal run of whitespace, as a greedy whitespace repetition does. -/
def dropSpaces (cs : List Char) : List Char := cs.dropWhile isPySpace

/-- Removes a maximal whitespace suffix, the trailing half of str.strip. -/
def stripTail : List Char → List Char
  | [] => []
  | c :: cs =>
    if stripTail cs = [] then (if isPySpace c then [] else [c])
    else c :: stripTail cs

/-- Models str.strip: leading and trailing whitespace removed. -/
def pyStrip (s : String) : String :=
  String.mk (stripTail (s.toList.dropWhile isPySpace))

/-- Models str.lower on the ASCII range used by the keyword filter. -/
def pyLower (s : String) : String := String.mk (s.toList.map Char.toLower)

/-- Models the Python substring test (the in operator on str): true iff
sub occurs contiguously in s, the empty string occurring everywhere. -/
def infixCheck (sub : List Char) : List Char → Bool
  | [] => sub.isEmpty
  | c :: rest => sub.isPrefixOf (c :: rest) || infixCheck sub rest

/-- Splits text into lines the way Python file iteration does: each
line keeps its trailing newline; a final fragment without a newline is
still yielded; an empty text yields no lines. -/
def splitLinesAux : List Char → List Char → List String
  | [], acc => if acc.isEmpty then [] else [String.mk acc.reverse]
  | c :: cs, acc =>
    if c = '\n' then String.mk (acc.reverse ++ ['\n']) :: splitLinesAux cs []
    else splitLinesAux cs (c :: acc)

/-- Lines of a text, trailing newlines kept. -/
def splitLinesKeepEnds (s : String) : List String := splitLinesAux s.toList []

/-- Models content.split with separator newline and count one: the
first line (without the newline) and everything after the first newline
(empty when there is no newline or nothing follows it, which the source
only ever tests for truthiness). -/
def splitFirstLine (s : String) : String × String :=
  let cs := s.toList
  (String.mk (cs.takeWhile (fun c => c ≠ '\n')),
   String.mk ((cs.dropWhile (fun c => c ≠ '\n')).drop 1))

/-- Matches the leading alternation of both source regexes: one of the
literal tags LOG, WARN, ERROR at the start of the line.  The three
alternatives start with distinct characters, so the leftmost-match
alternation is an ordinary first-fit pattern match. -/
def matchTag : List Char → Option (String × List Char)
  | 'L' :: 'O' :: 'G' :: rest => some ("LOG", rest)
  | 'W' :: 'A' :: 'R' :: 'N' :: rest => some ("WARN", rest)
  | 'E' :: 'R' :: 'R' :: 'O' :: 'R' :: rest => some ("ERROR", rest)
  | _ => none

/-- Models the compiled entry start pattern of parse_log_file: a tag,
optional whitespace, then a colon, anchored at the start of the line.
Returns the captured tag. -/
def matchEntryStart (line : String) : Option String :=
  match matchTag line.toList with
  | none => none
  | some (tag, r) =>
    match dropSpaces r with
    | ':' :: _ => some tag
    | _ => none

/-- One raw log record: the captured tag and the accumulated text,
continuation lines included, exactly as parse_log_file builds it. -/
structure Entry where
  type : String
  content : String
deriving DecidableEq, Repr

/-- The segmentation loop of parse_log_file: an optional current entry
is grown by continuation lines and sealed when a new tag line or the
end of the input arrives; lines before the first tag line are dropped. -/
def parseLines : List String → Option Entry → List Entry
  | [], cur =>
    match cur with
    | none => []
    | some e => [e]
  | line :: rest, cur =>
    match matchEntryStart line with
    | some tag =>
      match cur with
      | none => parseLines rest (some ⟨tag, line⟩)
      | some e => e :: parseLines rest (some ⟨tag, line⟩)
    | none =>
      match cur with
      | none => parseLines rest none
      | some e => parseLines rest (some ⟨e.type, e.content ++ line⟩)

/-- Models parse_log_file on the decoded text of the input file. -/
def parse_log_file (text : String) : List Entry :=
  parseLines (splitLinesKeepEnds text) none

/-- The four built-in keywords of should_include_entry. -/
def default_keywords : List String := ["error", "warning", "err", "warn"]

/-- Models should_include_entry: WARN and ERROR records always pass;
LOG records pass when the lowercased content contains a built-in
keyword or one of the lowercased caller-supplied keywords. -/
def should_include_entry (e : Entry) (additional_keywords : Option (List String)) : Bool :=
  if e.type = "ERROR" || e.type = "WARN" then true
  else if e.type = "LOG" then
    let content_lower := pyLower e.content
    if default_keywords.any (fun k => infixCheck k.toList content_lower.toList) then true
    else
      match additional_keywords with
      | some ks => ks.any (fun k => infixCheck (pyLower k).toList content_lower.toList)
      | none => false
  else false

/-- Models the optional group of the timestamp regex, the marker made
of the letter f, a colon, digits and a comma followed by optional
whitespace.  When the group cannot match (or matches only partially)
the regex retries at the same position without it, which is returning
the input unchanged; a committed full match cannot be undone in a way
that changes the overall result, because a position after the group
never starts with the letter t when the group matched at it. -/
def skipFMarker (r6 : List Char) : List Char :=
  match r6 with
  | 'f' :: ':' :: r7 =>
    let fd := r7.takeWhile Char.isDigit
    let r8 := r7.dropWhile Char.isDigit
    if fd = [] then r6
    else
      match r8 with
      | ',' :: r9 => dropSpaces r9
      | _ => r6
  | _ => r6

/-- Models the timestamp regex of extract_timestamp_and_body on the
first line: tag, optional spaces, colon, optional spaces, a nonempty
run of non-whitespace (the category token), mandatory whitespace, the
optional f marker, then the letter t, a colon, nonempty digits and a
closing angle bracket; the remainder of the line is captured.  Returns
the captured tag, category token, digits and remainder. -/
def matchTimestampLine (line : List Char) : Option (String × String × String × String) :=
  match matchTag line with
  | none => none
  | some (tag, r1) =>
    match dropSpaces r1 with
    | ':' :: r3 =>
      let r4 := dropSpaces r3
      let tok := r4.takeWhile (fun c => !isPySpace c)
      let r5 := r4.dropWhile (fun c => !isPySpace c)
      if tok = [] then none
      else if r5.takeWhile isPySpace = [] then none
      else
        let r6 := r5.dropWhile isPySpace
        match skipFMarker r6 with
        | 't' :: ':' :: r8 =>
          let ds := r8.takeWhile Char.isDigit
          let r9 := r8.dropWhile Char.isDigit
          if ds = [] then none
          else
            match r9 with
            | '>' :: r10 => some (tag, String.mk tok, String.mk ds, String.mk r10)
            | _ => none
        | _ => none
    | _ => none

/-- Models extract_timestamp_and_body: on a matching first line the
captured digits are the timestamp and the body is the reconstructed
first line (tag, a spaced colon, the category token and the remainder)
followed by the continuation text when it is nonempty, the whole
stripped; otherwise no timestamp and the stripped original content. -/
def extract_timestamp_and_body (content : String) : Option String × String :=
  let fl := (splitFirstLine content).1
  let rest := (splitFirstLine content).2
  match matchTimestampLine fl.toList with
  | some (tag, tok, ts, msgRest) =>
    let bodyFirst := tag ++ " : " ++ tok ++ msgRest
    let body := bodyFirst ++ (if rest ≠ "" then "\n" ++ rest else "")
    (some ts, pyStrip body)
  | none => (none, pyStrip content)

/-- One deduplicated group, with the fields the source dict values
carry: originating type and raw content, the canonical body used as
the key, the collected timestamps and the creation rank. -/
structure MergedEntry where
  type : String
  content : String
  body : String
  timestamps : List String
  first_index : Nat
deriving DecidableEq, Repr

/-- Models the Python truthiness guard on an optional timestamp: a
missing or empty timestamp contributes nothing. -/
def tsList : Option String → List String
  | some t => if t = "" then [] else [t]
  | none => []

/-- One iteration of the deduplication loop.  The lookup dict keyed by
canonical body is modelled as the list of groups in creation order;
keys in a dict are unique, and the map update below touches exactly the
one group with the matching body because bodies of distinct groups are
distinct (proved below for every reachable state). -/
def dedupStep (acc : List MergedEntry) (e : Entry) : List MergedEntry :=
  if (extract_timestamp_and_body e.content).2 ∈ acc.map (fun g => g.body) then
    acc.map (fun g =>
      if g.body = (extract_timestamp_and_body e.content).2 then
        { g with timestamps := g.timestamps ++ tsList (extract_timestamp_and_body e.content).1 }
      else g)
  else
    acc ++ [{ type := e.type, content := e.content,
              body := (extract_timestamp_and_body e.content).2,
              timestamps := tsList (extract_timestamp_and_body e.content).1,
              first_index := acc.length }]

/-- Stable insertion by numeric key: the new element goes in front of
the first strictly greater key and after equal keys, so elements with
equal keys keep their input order. -/
def insertKeyed {α : Type} (key : α → Nat) (x : α) : List α → List α
  | [] => [x]
  | y :: ys => if key x ≤ key y then x :: y :: ys else y :: insertKeyed key x ys

/-- Stable sort by numeric key, extensionally the Python sorted builtin
with a key function (both are stable sorts, and a stable sort by a
given key is unique). -/
def sortKeyed {α : Type} (key : α → Nat) (l : List α) : List α :=
  l.foldr (insertKeyed key) []

/-- Models deduplicate_entries: fold the records through the lookup
structure, then sort the groups by creation rank. -/
def deduplicate_entries (entries : List Entry) : List MergedEntry :=
  sortKeyed (fun g => g.first_index) (entries.foldl dedupStep [])

/-- Value of a digit string, most significant digit first. -/
def digitsToNat (cs : List Char) : Nat :=
  cs.foldl (fun n c => n * 10 + (c.toNat - 48)) 0

/-- True of a nonempty string of decimal digits. -/
def isDigitStr (s : String) : Bool :=
  !s.toList.isEmpty && s.toList.all Char.isDigit

/-- Models the int constructor as used for sort keys: defined on the
nonempty digit strings the pipeline produces, failing elsewhere (the
Python code would raise there). -/
def pyInt (s : String) : Option Nat :=
  if isDigitStr s then some (digitsToNat s.toList) else none

/-- Numeric key of a timestamp string; the fallback zero is never used
on pipeline data, where pyInt is always defined. -/
def tsKey (t : String) : Nat := (pyInt t).getD 0

/-- Models format_timestamp_range: N/A for no timestamps, the sole
timestamp verbatim for one, and otherwise the numerically sorted
extremes with the total count.  The sort applies the int key to every
element first, so an unparsable element makes the whole call fail
(Python raises ValueError); that case is modelled as none. -/
def format_timestamp_range (timestamps : List String) : Option String :=
  match timestamps with
  | [] => some "N/A"
  | [t] => some t
  | _ :: _ :: _ =>
    if timestamps.all (fun t => (pyInt t).isSome) then
      let sorted_ts := sortKeyed tsKey timestamps
      some (sorted_ts.headD "" ++ " ~ " ++ (sorted_ts.getLast?).getD "" ++
            " (x" ++ toString timestamps.length ++ ")")
    else none

/-! ## Basic list and string lemmas -/

/-- Splitting an append at the boundary between a block that satisfies
the predicate and a block whose head does not. -/
theorem takeDrop_app (p : Char → Bool) (a b : List Char)
    (ha : ∀ c ∈ a, p c = true) (hb : ∀ c, b.head? = some c → p c = false) :
    (a ++ b).takeWhile p = a ∧ (a ++ b).dropWhile p = b := by
  induction a with
  | nil =>
    cases b with
    | nil => simp
    | cons c bs =>
      have := hb c rfl
      simp [List.takeWhile_cons, List.dropWhile_cons, this]
  | cons c a ih =>
    have hc := ha c (by simp)
    have ih2 := ih (fun x hx => ha x (by simp [hx]))
    simp [List.takeWhile_cons, List.dropWhile_cons, hc, ih2.1, ih2.2]

/-- A list whose head does not satisfy the predicate is unchanged by
dropWhile. -/
theorem dropWhile_eq_self_of_head (p : Char → Bool) (l : List Char)
    (h : ∀ c, l.head? = some c → p c = false) : l.dropWhile p = l := by
  cases l with
  | nil => rfl
  | cons c cs => simp [List.dropWhile_cons, h c rfl]

/-- The head surviving dropWhile does not satisfy the predicate. -/
theorem head_dropWhile_false (p : Char → Bool) (l : List Char) (c : Char)
    (h : (l.dropWhile p).head? = some c) : p c = false := by
  have := List.head?_dropWhile_not p l
  rw [h] at this
  exact this

/-- Unfolding equation for stripTail on a cons cell. -/
theorem stripTail_cons (c : Char) (cs : List Char) :
    stripTail (c :: cs) =
      if stripTail cs = [] then (if isPySpace c then [] else [c])
      else c :: stripTail cs := by
  rfl

/-- A nonempty stripTail result starts with the head of its input. -/
theorem stripTail_head? (l : List Char) (c : Char)
    (h : (stripTail l).head? = some c) : l.head? = some c := by
  cases l with
  | nil => simp [stripTail] at h
  | cons a as =>
    rw [stripTail_cons] at h
    by_cases he : stripTail as = []
    · rw [if_pos he] at h
      by_cases ha : isPySpace a = true
      · simp [ha] at h
      · simp only [ha] at h
        simp at h
        simp [h]
    · rw [if_neg he] at h
      simp at h
      simp [h]

/-- stripTail is idempotent. -/
theorem stripTail_idem (l : List Char) : stripTail (stripTail l) = stripTail l := by
  induction l with
  | nil => rfl
  | cons a as ih =>
    rw [stripTail_cons]
    by_cases he : stripTail as = []
    · rw [if_pos he]
      by_cases ha : isPySpace a = true
      · simp [ha, stripTail]
      · simp [ha, stripTail]
    · rw [if_neg he, stripTail_cons, ih, if_neg he]

/-- Python strip is idempotent. -/
theorem pyStrip_idem (s : String) : pyStrip (pyStrip s) = pyStrip s := by
  unfold pyStrip
  congr 1
  have hmk : (String.mk (stripTail (s.toList.dropWhile isPySpace))).toList
      = stripTail (s.toList.dropWhile isPySpace) := rfl
  rw [hmk]
  have hdrop : (stripTail (s.toList.dropWhile isPySpace)).dropWhile isPySpace
      = stripTail (s.toList.dropWhile isPySpace) := by
    apply dropWhile_eq_self_of_head
    intro c hc
    exact head_dropWhile_false isPySpace s.toList c (stripTail_head? _ c hc)
  rw [hdrop, stripTail_idem]

/-! ## Lemmas about the stable keyed sort -/

/-- Inserting permutes to consing. -/
theorem insertKeyed_perm {α : Type} (key : α → Nat) (x : α) (l : List α) :
    List.Perm (insertKeyed key x l) (x :: l) := by
  induction l with
  | nil => exact List.Perm.refl _
  | cons y ys ih =>
    unfold insertKeyed
    by_cases h : key x ≤ key y
    · simp [h]
    · simp only [h, if_neg, ite_false]
      exact (ih.cons y).trans (List.Perm.swap x y ys)

/-- The sort permutes its input. -/
theorem sortKeyed_perm {α : Type} (key : α → Nat) (l : List α) :
    List.Perm (sortKeyed key l) l := by
  induction l with
  | nil => exact List.Perm.refl _
  | cons a as ih =>
    exact (insertKeyed_perm key a (sortKeyed key as)).trans (ih.cons a)

/-- Insertion preserves sortedness by key. -/
theorem insertKeyed_pairwise {α : Type} (key : α → Nat) (x : α) (l : List α)
    (h : l.Pairwise (fun a b => key a ≤ key b)) :
    (insertKeyed key x l).Pairwise (fun a b => key a ≤ key b) := by
  induction l with
  | nil => simp [insertKeyed]
  | cons y ys ih =>
    unfold insertKeyed
    by_cases hxy : key x ≤ key y
    · simp only [hxy, if_pos]
      refine List.Pairwise.cons ?_ h
      intro b hb
      rcases List.mem_cons.mp hb with rfl | hb2
      · exact hxy
      · exact le_trans hxy ((List.pairwise_cons.mp h).1 b hb2)
    · simp only [hxy, if_neg, ite_false]
      have hys := (List.pairwise_cons.mp h).2
      refine List.Pairwise.cons ?_ (ih hys)
      intro b hb
      have hb2 := (insertKeyed_perm key x ys).mem_iff.mp hb
      rcases List.mem_cons.mp hb2 with rfl | hb3
      · exact le_of_lt (Nat.lt_of_not_le hxy)
      · exact (List.pairwise_cons.mp h).1 b hb3

/-- The sort output is sorted by key. -/
theorem sortKeyed_pairwise {α : Type} (key : α → Nat) (l : List α) :
    (sortKeyed key l).Pairwise (fun a b => key a ≤ key b) := by
  induction l with
  | nil => simp [sortKeyed]
  | cons a as ih => exact insertKeyed_pairwise key a _ ih

/-- Sorting a list that is already sorted by key changes nothing. -/
theorem sortKeyed_eq_self {α : Type} (key : α → Nat) (l : List α)
    (h : l.Pairwise (fun a b => key a ≤ key b)) : sortKeyed key l = l := by
  induction l with
  | nil => rfl
  | cons a as ih =>
    have has := (List.pairwise_cons.mp h).2
    have : sortKeyed key (a :: as) = insertKeyed key a (sortKeyed key as) := rfl
    rw [this, ih has]
    cases as with
    | nil => rfl
    | cons y ys =>
      have hay : key a ≤ key y := (List.pairwise_cons.mp h).1 y (by simp)
      simp [insertKeyed, hay]

/-- In a list sorted by key, every element's key is at most the key of
the last element. -/
theorem pairwise_key_le_getLast {α : Type} (key : α → Nat) (l : List α)
    (h : l.Pairwise (fun a b => key a ≤ key b)) (hne : l ≠ []) :
    ∀ x ∈ l, key x ≤ key (l.getLast hne) := by
  induction l with
  | nil => exact absurd rfl hne
  | cons a as ih =>
    intro x hx
    cases as with
    | nil =>
      rcases List.mem_singleton.mp hx with rfl
      simp [List.getLast]
    | cons b bs =>
      have hlast : (a :: b :: bs).getLast hne = (b :: bs).getLast (by simp) := by
        simp [List.getLast_cons]
      rw [hlast]
      rcases List.mem_cons.mp hx with rfl | hx2
      · have hmem := List.getLast_mem (l := b :: bs) (by simp)
        exact (List.pairwise_cons.mp h).1 _ hmem
      · exact ih (List.pairwise_cons.mp h).2 (by simp) x hx2

/-! ## C3: the filtering rule -/

/-- C3: should_include_entry returns true iff the level is WARN or
ERROR, or the level is LOG and the case-folded full text contains one
of the built-in substrings or a case-folded caller-supplied keyword,
as a substring match. -/
theorem C3_should_include_iff (e : Entry) (kws : Option (List String)) :
    should_include_entry e kws = true ↔
      (e.type = "WARN" ∨ e.type = "ERROR" ∨
        (e.type = "LOG" ∧
          ((∃ k ∈ default_keywords, infixCheck k.toList (pyLower e.content).toList = true) ∨
           (∃ ks, kws = some ks ∧
             ∃ k ∈ ks, infixCheck (pyLower k).toList (pyLower e.content).toList = true)))) := by
  unfold should_include_entry
  by_cases h1 : e.type = "ERROR"
  · simp [h1]
  · by_cases h2 : e.type = "WARN"
    · simp [h2]
    · by_cases h3 : e.type = "LOG"
      · cases kws with
        | none => simp [h1, h2, h3, List.any_eq_true]
        | some ks => simp [h1, h2, h3, List.any_eq_true]
      · cases kws <;> simp [h1, h2, h3]

/-! ## C5: timestamp range formatting -/

/-- C5: the empty list renders as N/A, a singleton renders verbatim,
and two or more timestamps render as the numeric minimum and maximum
with the total count including repeats; in particular the digit
strings are compared as integers, not lexicographically. -/
theorem C5_format_range :
    format_timestamp_range [] = some "N/A" ∧
    (∀ t, format_timestamp_range [t] = some t) ∧
    format_timestamp_range ["10", "3", "10"] = some "3 ~ 10 (x3)" ∧
    (∀ l, 2 ≤ l.length → (∀ t ∈ l, (pyInt t).isSome = true) →
      ∃ m M, m ∈ l ∧ M ∈ l ∧
        format_timestamp_range l =
          some (m ++ " ~ " ++ M ++ " (x" ++ toString l.length ++ ")") ∧
        (∀ x ∈ l, tsKey m ≤ tsKey x ∧ tsKey x ≤ tsKey M)) := by
  refine ⟨rfl, fun t => rfl, by decide, ?_⟩
  intro l hlen hall
  match l with
  | [] => simp at hlen
  | [t] => simp at hlen
  | a :: b :: r =>
    have hperm := sortKeyed_perm tsKey (a :: b :: r)
    have hnil : sortKeyed tsKey (a :: b :: r) ≠ [] := by
      intro heq
      have := hperm.length_eq
      rw [heq] at this
      simp at this
    obtain ⟨m, tl, hs⟩ : ∃ m tl, sortKeyed tsKey (a :: b :: r) = m :: tl := by
      cases hsk : sortKeyed tsKey (a :: b :: r) with
      | nil => exact absurd hsk hnil
      | cons m tl => exact ⟨m, tl, rfl⟩
    have hpair := sortKeyed_pairwise tsKey (a :: b :: r)
    have hM := pairwise_key_le_getLast tsKey _ hpair hnil
    refine ⟨m, (sortKeyed tsKey (a :: b :: r)).getLast hnil, ?_, ?_, ?_, ?_⟩
    · exact hperm.mem_iff.mp (by rw [hs]; simp)
    · exact hperm.mem_iff.mp (List.getLast_mem hnil)
    · have hcond : (a :: b :: r).all (fun t => (pyInt t).isSome) = true :=
        List.all_eq_true.mpr hall
      have h1 : (sortKeyed tsKey (a :: b :: r)).headD "" = m := by rw [hs]; rfl
      have h2 : (sortKeyed tsKey (a :: b :: r)).getLast?.getD ""
          = (sortKeyed tsKey (a :: b :: r)).getLast hnil := by
        rw [List.getLast?_eq_getLast _ hnil]
        rfl
      have hfmt : format_timestamp_range (a :: b :: r) =
          some ((sortKeyed tsKey (a :: b :: r)).headD "" ++ " ~ " ++
                (sortKeyed tsKey (a :: b :: r)).getLast?.getD "" ++
                " (x" ++ toString (a :: b :: r).length ++ ")") := by
        unfold format_timestamp_range
        rw [if_pos hcond]
      rw [h1, h2] at hfmt
      exact hfmt
    · intro x hx
      have hxs : x ∈ sortKeyed tsKey (a :: b :: r) := hperm.mem_iff.mpr hx
      constructor
      · rw [hs] at hxs
        rcases List.mem_cons.mp hxs with rfl | hx2
        · exact le_refl _
        · have := (List.pairwise_cons.mp (hs ▸ hpair)).1
          exact this x hx2
      · exact hM x hxs

/-- Witness for C5: the general clause instantiated at a concrete list. -/
theorem C5_format_range_witness :
    ∃ m M, m ∈ (["10", "3", "10"] : List String) ∧ M ∈ (["10", "3", "10"] : List String) ∧
      format_timestamp_range ["10", "3", "10"] =
        some (m ++ " ~ " ++ M ++ " (x" ++ toString (["10", "3", "10"] : List String).length ++ ")") ∧
      (∀ x ∈ (["10", "3", "10"] : List String), tsKey m ≤ tsKey x ∧ tsKey x ≤ tsKey M) :=
  C5_format_range.2.2.2 ["10", "3", "10"] (by decide) (by decide)

/-! ## C8: the end-to-end scenario -/

/-- C8: on the three-line scenario input with no extra keywords the
segmenter finds two LOG records and one ERROR record, the filter drops
both LOG records and keeps the ERROR record, and deduplication yields
exactly one group with timestamp 5 whose body contains bar and boom. -/
theorem C8_pipeline_scenario :
    (parse_log_file "LOG: foo t:100>hello\nLOG: foo t:200>hello\nERROR: bar t:5>boom\n").map
        (fun e => e.type) = ["LOG", "LOG", "ERROR"] ∧
    ((parse_log_file "LOG: foo t:100>hello\nLOG: foo t:200>hello\nERROR: bar t:5>boom\n").filter
        (fun e => should_include_entry e none)).map (fun e => e.type) = ["ERROR"] ∧
    deduplicate_entries
        ((parse_log_file "LOG: foo t:100>hello\nLOG: foo t:200>hello\nERROR: bar t:5>boom\n").filter
          (fun e => should_include_entry e none)) =
      [⟨"ERROR", "ERROR: bar t:5>boom\n", "ERROR : barboom", ["5"], 0⟩] ∧
    infixCheck "bar".toList "ERROR : barboom".toList = true ∧
    infixCheck "boom".toList "ERROR : barboom".toList = true := by
  refine ⟨by decide, by decide, by decide, by decide, by decide⟩

/-! ## Deduplication: order and body invariants -/

/-- Canonical body of a record, the deduplication key. -/
def bodyOf (e : Entry) : String := (extract_timestamp_and_body e.content).2

/-- Extracted timestamp of a record. -/
def tsOf (e : Entry) : Option String := (extract_timestamp_and_body e.content).1

/-- Spec-side reading of the output order: the distinct values of a
list in order of first occurrence, scanning left to right past an
already-seen set. -/
def firstOccurAux (seen : List String) : List String → List String
  | [] => []
  | b :: rest =>
    if b ∈ seen then firstOccurAux seen rest
    else b :: firstOccurAux (b :: seen) rest

/-- The distinct values of a list in order of first occurrence. -/
def firstOccurrences (l : List String) : List String := firstOccurAux [] l

/-- The seen set only matters up to membership. -/
theorem firstOccurAux_congr (l : List String) :
    ∀ s1 s2, (∀ x, x ∈ s1 ↔ x ∈ s2) → firstOccurAux s1 l = firstOccurAux s2 l := by
  induction l with
  | nil => intro s1 s2 h; rfl
  | cons b rest ih =>
    intro s1 s2 h
    unfold firstOccurAux
    by_cases hb : b ∈ s1
    · rw [if_pos hb, if_pos ((h b).mp hb)]
      exact ih s1 s2 h
    · rw [if_neg hb, if_neg (fun hc => hb ((h b).mpr hc))]
      rw [ih (b :: s1) (b :: s2) (by intro x; simp [h x])]

/-- Values produced by firstOccurAux avoid the seen set. -/
theorem mem_firstOccurAux (l : List String) :
    ∀ seen x, x ∈ firstOccurAux seen l → x ∉ seen := by
  induction l with
  | nil => intro seen x h; simp [firstOccurAux] at h
  | cons b rest ih =>
    intro seen x h
    unfold firstOccurAux at h
    by_cases hb : b ∈ seen
    · rw [if_pos hb] at h
      exact ih seen x h
    · rw [if_neg hb] at h
      rcases List.mem_cons.mp h with rfl | h2
      · exact hb
      · intro hx
        exact ih (b :: seen) x h2 (by simp [hx])

/-- The first-occurrence list has no duplicates. -/
theorem firstOccurAux_nodup (l : List String) :
    ∀ seen, (firstOccurAux seen l).Nodup := by
  induction l with
  | nil => intro seen; simp [firstOccurAux]
  | cons b rest ih =>
    intro seen
    unfold firstOccurAux
    by_cases hb : b ∈ seen
    · rw [if_pos hb]; exact ih seen
    · rw [if_neg hb]
      refine List.Nodup.cons ?_ (ih (b :: seen))
      intro hmem
      exact mem_firstOccurAux rest (b :: seen) b hmem (by simp)

/-- A deduplication step leaves the body list unchanged on a duplicate
and appends the new body otherwise. -/
theorem dedupStep_bodies (acc : List MergedEntry) (e : Entry) :
    (dedupStep acc e).map (fun g => g.body) =
      if bodyOf e ∈ acc.map (fun g => g.body) then acc.map (fun g => g.body)
      else acc.map (fun g => g.body) ++ [bodyOf e] := by
  unfold dedupStep bodyOf
  by_cases h : (extract_timestamp_and_body e.content).2 ∈ acc.map (fun g => g.body)
  · rw [if_pos h, if_pos h, List.map_map]
    apply List.map_congr_left
    intro g hg
    by_cases hgb : g.body = (extract_timestamp_and_body e.content).2 <;>
      simp [Function.comp, hgb]
  · rw [if_neg h, if_neg h]
    simp

/-- A deduplication step preserves the creation-rank invariant: ranks
are exactly the positions. -/
theorem dedupStep_idx (acc : List MergedEntry) (e : Entry)
    (h : acc.map (fun g => g.first_index) = List.range acc.length) :
    (dedupStep acc e).map (fun g => g.first_index) = List.range (dedupStep acc e).length := by
  unfold dedupStep
  by_cases hb : (extract_timestamp_and_body e.content).2 ∈ acc.map (fun g => g.body)
  · rw [if_pos hb, List.map_map, List.length_map]
    have hcong : acc.map ((fun g : MergedEntry => g.first_index) ∘
        (fun g : MergedEntry =>
          if g.body = (extract_timestamp_and_body e.content).2
          then { g with timestamps := g.timestamps ++ tsList (extract_timestamp_and_body e.content).1 }
          else g)) = acc.map (fun g => g.first_index) := by
      apply List.map_congr_left
      intro g hg
      by_cases hgb : g.body = (extract_timestamp_and_body e.content).2 <;>
        simp [Function.comp, hgb]
    rw [hcong, h]
  · rw [if_neg hb, List.map_append, List.length_append, h]
    simp [List.range_succ]

/-- Unfolding equation of firstOccurAux on a cons cell. -/
theorem firstOccurAux_cons (seen : List String) (b : String) (rest : List String) :
    firstOccurAux seen (b :: rest) =
      if b ∈ seen then firstOccurAux seen rest
      else b :: firstOccurAux (b :: seen) rest := rfl

/-- Bodies of the deduplication fold: the accumulator bodies followed
by the first occurrences of the incoming bodies not yet present. -/
theorem dedupFold_bodies (es : List Entry) :
    ∀ acc : List MergedEntry,
      (es.foldl dedupStep acc).map (fun g => g.body) =
        acc.map (fun g => g.body) ++
          firstOccurAux (acc.map (fun g => g.body)) (es.map bodyOf) := by
  induction es with
  | nil => intro acc; simp [firstOccurAux]
  | cons e es ih =>
    intro acc
    rw [List.foldl_cons, ih (dedupStep acc e), dedupStep_bodies, List.map_cons,
      firstOccurAux_cons]
    by_cases h : bodyOf e ∈ acc.map (fun g => g.body)
    · rw [if_pos h, if_pos h]
    · rw [if_neg h, if_neg h]
      rw [firstOccurAux_congr (es.map bodyOf)
        (acc.map (fun g => g.body) ++ [bodyOf e])
        (bodyOf e :: acc.map (fun g => g.body))
        (by intro x; simp [or_comm])]
      simp

/-- Creation ranks in the fold output are exactly the positions. -/
theorem dedupFold_idx (es : List Entry) :
    ∀ acc : List MergedEntry,
      acc.map (fun g => g.first_index) = List.range acc.length →
      (es.foldl dedupStep acc).map (fun g => g.first_index) =
        List.range (es.foldl dedupStep acc).length := by
  induction es with
  | nil => intro acc h; exact h
  | cons e es ih =>
    intro acc h
    rw [List.foldl_cons]
    exact ih (dedupStep acc e) (dedupStep_idx acc e h)

/-- The final sort by creation rank is the identity: the fold output is
already in creation order. -/
theorem dedup_eq_fold (entries : List Entry) :
    deduplicate_entries entries = entries.foldl dedupStep [] := by
  unfold deduplicate_entries
  apply sortKeyed_eq_self
  have hidx := dedupFold_idx entries [] (by simp)
  have hlt : (List.map (fun g => g.first_index) (entries.foldl dedupStep [])).Pairwise (· < ·) := by
    rw [hidx]
    exact List.pairwise_lt_range _
  rw [List.pairwise_map] at hlt
  exact hlt.imp le_of_lt

/-! ## C2: deduplication output order -/

/-- C2: the groups correspond, in order, to the distinct canonical
bodies in order of first occurrence; there is one group per distinct
body; the rank of each group is the number of groups created before
it, and the output is sorted by rank. -/
theorem C2_dedup_order (entries : List Entry) :
    (deduplicate_entries entries).map (fun g => g.body) =
        firstOccurrences (entries.map bodyOf) ∧
    (deduplicate_entries entries).map (fun g => g.first_index) =
        List.range (deduplicate_entries entries).length ∧
    ((deduplicate_entries entries).map (fun g => g.body)).Nodup := by
  have he := dedup_eq_fold entries
  refine ⟨?_, ?_, ?_⟩
  · rw [he, dedupFold_bodies entries []]
    simp [firstOccurrences]
  · rw [he]
    exact dedupFold_idx entries [] (by simp)
  · rw [he, dedupFold_bodies entries []]
    simp only [List.map_nil, List.nil_append]
    exact firstOccurAux_nodup _ _

/-! ## C7: the duplicate branch changes only the timestamps list -/

/-- C7: processing a record whose canonical body is already present
keeps the group count and every group type, body and rank; the only
mutation is appending the timestamp, when present, to the timestamps
of the group carrying that body, and a record without a timestamp
leaves the accumulator entirely unchanged. -/
theorem C7_duplicate_frame (acc : List MergedEntry) (e : Entry)
    (h : bodyOf e ∈ acc.map (fun g => g.body)) :
    (tsOf e = none → dedupStep acc e = acc) ∧
    (dedupStep acc e).length = acc.length ∧
    (∀ i (hi : i < acc.length) (hi2 : i < (dedupStep acc e).length),
      ((dedupStep acc e).get ⟨i, hi2⟩).type = (acc.get ⟨i, hi⟩).type ∧
      ((dedupStep acc e).get ⟨i, hi2⟩).body = (acc.get ⟨i, hi⟩).body ∧
      ((dedupStep acc e).get ⟨i, hi2⟩).first_index = (acc.get ⟨i, hi⟩).first_index ∧
      ((dedupStep acc e).get ⟨i, hi2⟩).timestamps =
        (acc.get ⟨i, hi⟩).timestamps ++
          (if (acc.get ⟨i, hi⟩).body = bodyOf e then tsList (tsOf e) else [])) := by
  unfold bodyOf at h
  unfold bodyOf tsOf
  have hstep : dedupStep acc e = acc.map (fun g =>
      if g.body = (extract_timestamp_and_body e.content).2 then
        { g with timestamps := g.timestamps ++ tsList (extract_timestamp_and_body e.content).1 }
      else g) := by
    unfold dedupStep
    rw [if_pos h]
  refine ⟨?_, ?_, ?_⟩
  · intro h0
    rw [hstep, h0]
    have hid : ∀ g ∈ acc, (if g.body = (extract_timestamp_and_body e.content).2 then
        { g with timestamps := g.timestamps ++ tsList none } else g) = g := by
      intro g hg
      by_cases hgb : g.body = (extract_timestamp_and_body e.content).2
      · rw [if_pos hgb]
        simp [tsList]
      · rw [if_neg hgb]
    rw [List.map_congr_left hid]
    simp
  · rw [hstep, List.length_map]
  · intro i hi hi2
    have hget : (dedupStep acc e).get ⟨i, hi2⟩ =
        (fun g => if g.body = (extract_timestamp_and_body e.content).2 then
          { g with timestamps := g.timestamps ++ tsList (extract_timestamp_and_body e.content).1 }
          else g) (acc.get ⟨i, hi⟩) := by
      simp only [hstep, List.get_eq_getElem, List.getElem_map]
    rw [hget]
    simp only [List.get_eq_getElem]
    by_cases hgb : acc[i].body = (extract_timestamp_and_body e.content).2 <;>
      simp [hgb]

/-- Witness for C7: a record with an already-seen body and no
timestamp leaves the accumulator unchanged. -/
theorem C7_duplicate_frame_witness :
    dedupStep [⟨"ERROR", "ERROR: boom\n", "ERROR: boom", [], 0⟩] ⟨"ERROR", "ERROR: boom\n"⟩ =
      [⟨"ERROR", "ERROR: boom\n", "ERROR: boom", [], 0⟩] :=
  (C7_duplicate_frame [⟨"ERROR", "ERROR: boom\n", "ERROR: boom", [], 0⟩]
    ⟨"ERROR", "ERROR: boom\n"⟩ (by decide)).1 (by decide)

/-! ## C1: the first-line timestamp grammar, stated declaratively -/

/-- Tag alternatives of the grammar. -/
def IsTagWord (tag : List Char) : Prop :=
  tag = ['L', 'O', 'G'] ∨ tag = ['W', 'A', 'R', 'N'] ∨ tag = ['E', 'R', 'R', 'O', 'R']

/-- The optional marker of the grammar: absent, or the letter f, a
colon, nonempty digits, a comma and optional trailing whitespace. -/
def FMarker (fp : List Char) : Prop :=
  fp = [] ∨ ∃ fd fs, fp = 'f' :: ':' :: (fd ++ ',' :: fs) ∧ fd ≠ [] ∧
    (∀ c ∈ fd, c.isDigit = true) ∧ (∀ c ∈ fs, isPySpace c = true)

/-- Declarative reading of the claimed grammar for the first line: a
level tag, optional spaces, a colon, optional spaces, a category token
of non-whitespace characters, spaces, an optional f marker, then the
letter t, a colon, digits, a closing angle bracket, and the rest of
the line. -/
def SpecMatchLine (line tag tok ds rest : List Char) : Prop :=
  ∃ s1 s2 s3 fp,
    line = tag ++ s1 ++ ':' :: (s2 ++ tok ++ s3 ++ fp ++ 't' :: ':' :: (ds ++ '>' :: rest)) ∧
    IsTagWord tag ∧
    (∀ c ∈ s1, isPySpace c = true) ∧
    (∀ c ∈ s2, isPySpace c = true) ∧
    tok ≠ [] ∧ (∀ c ∈ tok, isPySpace c = false) ∧
    s3 ≠ [] ∧ (∀ c ∈ s3, isPySpace c = true) ∧
    ds ≠ [] ∧ (∀ c ∈ ds, c.isDigit = true) ∧
    FMarker fp

/-- Tag equation for the LOG alternative. -/
theorem matchTag_LOG (r : List Char) : matchTag ('L' :: 'O' :: 'G' :: r) = some ("LOG", r) := rfl

/-- Tag equation for the WARN alternative. -/
theorem matchTag_WARN (r : List Char) :
    matchTag ('W' :: 'A' :: 'R' :: 'N' :: r) = some ("WARN", r) := rfl

/-- Tag equation for the ERROR alternative. -/
theorem matchTag_ERROR (r : List Char) :
    matchTag ('E' :: 'R' :: 'R' :: 'O' :: 'R' :: r) = some ("ERROR", r) := rfl

/-- A successful tag match pins down the line and the captured tag. -/
theorem matchTag_some (line : List Char) (t : String) (r : List Char)
    (h : matchTag line = some (t, r)) :
    (t = "LOG" ∧ line = 'L' :: 'O' :: 'G' :: r) ∨
    (t = "WARN" ∧ line = 'W' :: 'A' :: 'R' :: 'N' :: r) ∨
    (t = "ERROR" ∧ line = 'E' :: 'R' :: 'R' :: 'O' :: 'R' :: r) := by
  unfold matchTag at h
  split at h <;> simp_all

/-- The f marker skipper either leaves its input unchanged or consumes
a full marker whose pieces satisfy the grammar. -/
theorem skipFMarker_spec (r6 : List Char) :
    skipFMarker r6 = r6 ∨
    ∃ fd fs, fd ≠ [] ∧ (∀ c ∈ fd, c.isDigit = true) ∧ (∀ c ∈ fs, isPySpace c = true) ∧
      r6 = 'f' :: ':' :: (fd ++ ',' :: (fs ++ skipFMarker r6)) := by
  unfold skipFMarker
  split
  · next r7 =>
    by_cases hfd : r7.takeWhile Char.isDigit = []
    · rw [if_pos hfd]
      left
      rfl
    · rw [if_neg hfd]
      split
      · next r9 heq =>
        right
        refine ⟨r7.takeWhile Char.isDigit, r9.takeWhile isPySpace, hfd,
          fun c hc => List.mem_takeWhile_imp hc, fun c hc => List.mem_takeWhile_imp hc, ?_⟩
        have h7 : r7.takeWhile Char.isDigit ++ r7.dropWhile Char.isDigit = r7 :=
          List.takeWhile_append_dropWhile _ _
        have h9 : r9.takeWhile isPySpace ++ r9.dropWhile isPySpace = r9 :=
          List.takeWhile_append_dropWhile _ _
        rw [show dropSpaces r9 = r9.dropWhile isPySpace from rfl]
        rw [h9, ← heq, h7]
      · left
        rfl
  · left
    rfl

/-- Assembles a grammar decomposition from the stage equations of a
successful scan of the first line. -/
theorem specMatch_of_parts (tagc r1 r3 r8 r10 : List Char)
    (htagw : IsTagWord tagc)
    (hd : dropSpaces r1 = ':' :: r3)
    (htok : ¬ (dropSpaces r3).takeWhile (fun c => !isPySpace c) = [])
    (hs3 : ¬ ((dropSpaces r3).dropWhile (fun c => !isPySpace c)).takeWhile isPySpace = [])
    (hsf : skipFMarker (((dropSpaces r3).dropWhile (fun c => !isPySpace c)).dropWhile isPySpace)
      = 't' :: ':' :: r8)
    (hds : ¬ r8.takeWhile Char.isDigit = [])
    (hr9 : r8.dropWhile Char.isDigit = '>' :: r10) :
    SpecMatchLine (tagc ++ r1) tagc ((dropSpaces r3).takeWhile (fun c => !isPySpace c))
      (r8.takeWhile Char.isDigit) r10 := by
  set s1 := r1.takeWhile isPySpace with hs1def
  set r4 := dropSpaces r3 with hr4def
  set s2 := r3.takeWhile isPySpace with hs2def
  set tok := r4.takeWhile (fun c => !isPySpace c) with htokdef
  set r5 := r4.dropWhile (fun c => !isPySpace c) with hr5def
  set s3 := r5.takeWhile isPySpace with hs3def
  set r6 := r5.dropWhile isPySpace with hr6def
  set ds := r8.takeWhile Char.isDigit with hdsdef
  have e1 : s1 ++ ':' :: r3 = r1 := by
    rw [hs1def, ← hd]
    exact List.takeWhile_append_dropWhile isPySpace r1
  have e2 : s2 ++ r4 = r3 := by
    rw [hs2def, hr4def]
    exact List.takeWhile_append_dropWhile isPySpace r3
  have e3 : tok ++ r5 = r4 := by
    rw [htokdef, hr5def]
    exact List.takeWhile_append_dropWhile _ _
  have e4 : s3 ++ r6 = r5 := by
    rw [hs3def, hr6def]
    exact List.takeWhile_append_dropWhile _ _
  have e5 : ds ++ '>' :: r10 = r8 := by
    rw [hdsdef, ← hr9]
    exact List.takeWhile_append_dropWhile _ _
  have hs1mem : ∀ c ∈ s1, isPySpace c = true := by
    intro c hc
    rw [hs1def] at hc
    exact List.mem_takeWhile_imp hc
  have hs2mem : ∀ c ∈ s2, isPySpace c = true := by
    intro c hc
    rw [hs2def] at hc
    exact List.mem_takeWhile_imp hc
  have htokmem : ∀ c ∈ tok, isPySpace c = false := by
    intro c hc
    rw [htokdef] at hc
    have := List.mem_takeWhile_imp hc
    simpa using this
  have hs3mem : ∀ c ∈ s3, isPySpace c = true := by
    intro c hc
    rw [hs3def] at hc
    exact List.mem_takeWhile_imp hc
  have hdsmem : ∀ c ∈ ds, c.isDigit = true := by
    intro c hc
    rw [hdsdef] at hc
    exact List.mem_takeWhile_imp hc
  rcases skipFMarker_spec r6 with hfp | ⟨fd, fs, hfd, hfdd, hfss, hfpeq⟩
  · have hr6eq : r6 = 't' :: ':' :: r8 := by
      rw [← hfp]
      exact hsf
    refine ⟨s1, s2, s3, [], ?_, htagw, hs1mem, hs2mem, htok, htokmem, hs3, hs3mem,
      hds, hdsmem, Or.inl rfl⟩
    rw [← e1, ← e2, ← e3, ← e4, hr6eq, ← e5]
    simp [List.append_assoc]
  · rw [hsf] at hfpeq
    refine ⟨s1, s2, s3, 'f' :: ':' :: (fd ++ ',' :: fs), ?_, htagw, hs1mem, hs2mem,
      htok, htokmem, hs3, hs3mem, hds, hdsmem,
      Or.inr ⟨fd, fs, rfl, hfd, hfdd, hfss⟩⟩
    rw [← e1, ← e2, ← e3, ← e4, hfpeq, ← e5]
    simp [List.append_assoc]

/-- Soundness of the embedded regex: a successful match yields a
decomposition of the line by the declarative grammar, with the
captured groups as its pieces. -/
theorem matchLine_sound (line : List Char) (a b c d : String)
    (h : matchTimestampLine line = some (a, b, c, d)) :
    SpecMatchLine line a.toList b.toList c.toList d.toList := by
  unfold matchTimestampLine at h
  split at h
  · exact absurd h (by simp)
  · rename_i tg r1 hm
    split at h
    · rename_i r3 hd
      simp only [] at h
      split at h
      · exact absurd h (by simp)
      · rename_i htok
        split at h
        · exact absurd h (by simp)
        · rename_i hs3
          split at h
          · rename_i r8 hsf
            split at h
            · exact absurd h (by simp)
            · rename_i hds
              split at h
              · rename_i r10 hr9
                simp only [Option.some.injEq, Prod.mk.injEq] at h
                obtain ⟨rfl, rfl, rfl, rfl⟩ := h
                rcases matchTag_some line tg r1 hm with ⟨rfl, hline⟩ | ⟨rfl, hline⟩ | ⟨rfl, hline⟩
                · subst hline
                  exact specMatch_of_parts ['L', 'O', 'G'] r1 r3 r8 r10
                    (Or.inl rfl) hd htok hs3 hsf hds hr9
                · subst hline
                  exact specMatch_of_parts ['W', 'A', 'R', 'N'] r1 r3 r8 r10
                    (Or.inr (Or.inl rfl)) hd htok hs3 hsf hds hr9
                · subst hline
                  exact specMatch_of_parts ['E', 'R', 'R', 'O', 'R'] r1 r3 r8 r10
                    (Or.inr (Or.inr rfl)) hd htok hs3 hsf hds hr9
              · exact absurd h (by simp)
          · exact absurd h (by simp)
    · exact absurd h (by simp)

/-- A cons cell whose head fails the predicate, in the form the
splitting lemma expects. -/
theorem head_cons_false (p : Char → Bool) (c : Char) (l : List Char) (hc : p c = false) :
    ∀ x, ((c :: l).head? = some x) → p x = false := by
  intro x hx
  simp at hx
  rw [← hx]
  exact hc

/-- Unfolding equation of skipFMarker on an f-colon prefix. -/
theorem skipFMarker_cons (r7 : List Char) :
    skipFMarker ('f' :: ':' :: r7) =
      if r7.takeWhile Char.isDigit = [] then 'f' :: ':' :: r7
      else
        match r7.dropWhile Char.isDigit with
        | ',' :: r9 => dropSpaces r9
        | _ => 'f' :: ':' :: r7 := rfl

/-- A well-formed optional marker followed by the t-colon block is
skipped completely. -/
theorem skipFMarker_of_marker (fp T : List Char) (hfp : FMarker fp)
    (hT : ∃ z, T = 't' :: z) :
    skipFMarker (fp ++ T) = T := by
  obtain ⟨z, rfl⟩ := hT
  rcases hfp with rfl | ⟨fd, fs, rfl, hfdne, hfdd, hfss⟩
  · rfl
  · have h1 : ('f' :: ':' :: (fd ++ ',' :: fs)) ++ 't' :: z =
        'f' :: ':' :: (fd ++ ',' :: (fs ++ 't' :: z)) := by simp
    rw [h1, skipFMarker_cons]
    have h2 := takeDrop_app Char.isDigit fd (',' :: (fs ++ 't' :: z)) hfdd
      (head_cons_false Char.isDigit ',' _ (by decide))
    rw [h2.1, if_neg hfdne, h2.2]
    exact (takeDrop_app isPySpace fs ('t' :: z) hfss
      (head_cons_false isPySpace 't' _ (by decide))).2

/-- Completeness of the embedded regex: a grammar decomposition of the
line forces the scan to succeed with exactly its pieces. -/
theorem matchLine_complete (line tag tok ds rest : List Char)
    (h : SpecMatchLine line tag tok ds rest) :
    matchTimestampLine line =
      some (String.mk tag, String.mk tok, String.mk ds, String.mk rest) := by
  obtain ⟨s1, s2, s3, fp, hline, htagw, hs1, hs2, htokne, htokmem, hs3ne, hs3mem,
    hdsne, hdsmem, hfp⟩ := h
  subst hline
  obtain ⟨t0, tk, rfl⟩ : ∃ t0 tk, tok = t0 :: tk := by
    cases tok with
    | nil => exact absurd rfl htokne
    | cons t0 tk => exact ⟨t0, tk, rfl⟩
  obtain ⟨u0, u3, rfl⟩ : ∃ u0 u3, s3 = u0 :: u3 := by
    cases s3 with
    | nil => exact absurd rfl hs3ne
    | cons u0 u3 => exact ⟨u0, u3, rfl⟩
  have hB := (takeDrop_app isPySpace s1
      (':' :: (s2 ++ (t0 :: tk) ++ (u0 :: u3) ++ fp ++ 't' :: ':' :: (ds ++ '>' :: rest)))
      hs1 (head_cons_false isPySpace ':' _ (by decide))).2
  have hC := (takeDrop_app isPySpace s2
      ((t0 :: tk) ++ ((u0 :: u3) ++ (fp ++ 't' :: ':' :: (ds ++ '>' :: rest))))
      hs2 (head_cons_false isPySpace t0 _ (htokmem t0 (by simp)))).2
  have hD := takeDrop_app (fun c => !isPySpace c) (t0 :: tk)
      ((u0 :: u3) ++ (fp ++ 't' :: ':' :: (ds ++ '>' :: rest)))
      (by intro c hc; simp [htokmem c hc])
      (head_cons_false _ u0 _ (by simp [hs3mem u0 (by simp)]))
  have hE := takeDrop_app isPySpace (u0 :: u3)
      (fp ++ 't' :: ':' :: (ds ++ '>' :: rest))
      hs3mem
      (by
        intro x hx
        rcases hfp with rfl | ⟨fd, fs, hfpe, hfdne, hfdd, hfss⟩
        · simp at hx
          rw [← hx]
          decide
        · rw [hfpe] at hx
          simp at hx
          rw [← hx]
          decide)
  have hsk := skipFMarker_of_marker fp ('t' :: ':' :: (ds ++ '>' :: rest)) hfp
    ⟨':' :: (ds ++ '>' :: rest), rfl⟩
  have hG := takeDrop_app Char.isDigit ds ('>' :: rest) hdsmem
    (head_cons_false Char.isDigit '>' _ (by decide))
  simp only [List.append_assoc, List.cons_append, List.nil_append] at hB hC hD hE hsk hG ⊢
  rcases htagw with rfl | rfl | rfl
  · rw [show (['L', 'O', 'G'] : List Char) ++
        (s1 ++ ':' :: (s2 ++ (t0 :: (tk ++ (u0 :: (u3 ++ (fp ++ 't' :: ':' :: (ds ++ '>' :: rest)))))))) =
        'L' :: 'O' :: 'G' :: (s1 ++ ':' :: (s2 ++ (t0 :: (tk ++ (u0 :: (u3 ++ (fp ++ 't' :: ':' :: (ds ++ '>' :: rest)))))))) from rfl]
    simp only [matchTimestampLine, matchTag_LOG, dropSpaces, hB, hC, hD.1, hD.2, hE.1, hE.2, hsk, hG.1, hG.2]
    simp [hdsne]
  · rw [show (['W', 'A', 'R', 'N'] : List Char) ++
        (s1 ++ ':' :: (s2 ++ (t0 :: (tk ++ (u0 :: (u3 ++ (fp ++ 't' :: ':' :: (ds ++ '>' :: rest)))))))) =
        'W' :: 'A' :: 'R' :: 'N' :: (s1 ++ ':' :: (s2 ++ (t0 :: (tk ++ (u0 :: (u3 ++ (fp ++ 't' :: ':' :: (ds ++ '>' :: rest)))))))) from rfl]
    simp only [matchTimestampLine, matchTag_WARN, dropSpaces, hB, hC, hD.1, hD.2, hE.1, hE.2, hsk, hG.1, hG.2]
    simp [hdsne]
  · rw [show (['E', 'R', 'R', 'O', 'R'] : List Char) ++
        (s1 ++ ':' :: (s2 ++ (t0 :: (tk ++ (u0 :: (u3 ++ (fp ++ 't' :: ':' :: (ds ++ '>' :: rest)))))))) =
        'E' :: 'R' :: 'R' :: 'O' :: 'R' :: (s1 ++ ':' :: (s2 ++ (t0 :: (tk ++ (u0 :: (u3 ++ (fp ++ 't' :: ':' :: (ds ++ '>' :: rest)))))))) from rfl]
    simp only [matchTimestampLine, matchTag_ERROR, dropSpaces, hB, hC, hD.1, hD.2, hE.1, hE.2, hsk, hG.1, hG.2]
    simp [hdsne]

/-- C1: when the first line of the content carries a grammar
decomposition, the extractor returns the digits after the t marker as
the timestamp and the canonical body rebuilt as tag, spaced colon,
category token and remainder, followed by the continuation text when
one exists, the whole stripped; when no decomposition exists it
returns no timestamp and the stripped original content. -/
theorem C1_extract (content : String) :
    (∀ tag tok ds rest, SpecMatchLine (splitFirstLine content).1.toList tag tok ds rest →
      extract_timestamp_and_body content =
        (some (String.mk ds),
         pyStrip (String.mk tag ++ " : " ++ String.mk tok ++ String.mk rest ++
           (if (splitFirstLine content).2 ≠ "" then "\n" ++ (splitFirstLine content).2 else "")))) ∧
    ((∀ tag tok ds rest, ¬ SpecMatchLine (splitFirstLine content).1.toList tag tok ds rest) →
      extract_timestamp_and_body content = (none, pyStrip content)) := by
  constructor
  · intro tagL tokL dsL restL hmatch
    have hm := matchLine_complete (splitFirstLine content).1.toList tagL tokL dsL restL hmatch
    simp only [extract_timestamp_and_body, hm]
  · intro hno
    cases hm : matchTimestampLine (splitFirstLine content).1.toList with
    | none => simp only [extract_timestamp_and_body, hm]
    | some q =>
      obtain ⟨a, b, c, d⟩ := q
      exact absurd (matchLine_sound _ a b c d hm) (hno _ _ _ _)

/-- Witness for C1: a concrete line matching the grammar. -/
theorem C1_extract_witness :
    extract_timestamp_and_body "LOG: a t:1>b" = (some "1", "LOG : ab") := by
  have hs : SpecMatchLine (splitFirstLine "LOG: a t:1>b").1.toList ['L', 'O', 'G'] ['a'] ['1'] ['b'] :=
    ⟨[], [' '], [' '], [], by decide, Or.inl rfl, by decide, by decide, by decide, by decide,
      by decide, by decide, by decide, by decide, Or.inl rfl⟩
  have h := (C1_extract "LOG: a t:1>b").1 ['L', 'O', 'G'] ['a'] ['1'] ['b'] hs
  exact h.trans (by decide)

/-! ## C10: extracted timestamps are digit strings -/

/-- A timestamp returned by the extractor is a nonempty digit string. -/
theorem extract_timestamp_digits (content ts body : String)
    (h : extract_timestamp_and_body content = (some ts, body)) :
    isDigitStr ts = true := by
  unfold extract_timestamp_and_body at h
  simp only [] at h
  cases hm : matchTimestampLine (splitFirstLine content).1.toList with
  | none => rw [hm] at h; simp at h
  | some q =>
    obtain ⟨a, b, c, d⟩ := q
    rw [hm] at h
    simp only [Prod.mk.injEq, Option.some.injEq] at h
    obtain ⟨rfl, -⟩ := h
    obtain ⟨s1, s2, s3, fp, -, -, -, -, -, -, -, -, hdsne, hdsmem, -⟩ :=
      matchLine_sound _ a b c d hm
    unfold isDigitStr
    rw [Bool.and_eq_true]
    constructor
    · cases hcl : c.toList with
      | nil => exact absurd hcl hdsne
      | cons x xs => simp
    · exact List.all_eq_true.mpr hdsmem

/-- Fold preservation of a per-group invariant. -/
theorem dedupFold_pres (P : MergedEntry → Prop)
    (hstep : ∀ acc e g, g ∈ dedupStep acc e → (∀ g0 ∈ acc, P g0) → P g) :
    ∀ (es : List Entry) (acc : List MergedEntry),
      (∀ g ∈ acc, P g) → ∀ g ∈ es.foldl dedupStep acc, P g := by
  intro es
  induction es with
  | nil => intro acc hacc g hg; exact hacc g hg
  | cons e es ih =>
    intro acc hacc g hg
    rw [List.foldl_cons] at hg
    exact ih (dedupStep acc e) (fun g0 hg0 => hstep acc e g0 hg0 hacc) g hg

/-- A timestamp appended by a deduplication step is a digit string. -/
theorem tsList_digits (e : Entry) (t : String)
    (ht : t ∈ tsList (extract_timestamp_and_body e.content).1) : isDigitStr t = true := by
  cases hX : (extract_timestamp_and_body e.content).1 with
  | none => rw [hX] at ht; simp [tsList] at ht
  | some u =>
    rw [hX] at ht
    simp only [tsList] at ht
    by_cases hu : u = ""
    · rw [if_pos hu] at ht
      simp at ht
    · rw [if_neg hu] at ht
      rcases List.mem_singleton.mp ht with rfl
      refine extract_timestamp_digits e.content t (extract_timestamp_and_body e.content).2 ?_
      rw [← hX]

/-- The deduplication step preserves the digit-string invariant. -/
theorem dedupStep_digits (acc : List MergedEntry) (e : Entry) (g : MergedEntry)
    (hg : g ∈ dedupStep acc e)
    (hacc : ∀ g0 ∈ acc, ∀ t ∈ g0.timestamps, isDigitStr t = true) :
    ∀ t ∈ g.timestamps, isDigitStr t = true := by
  unfold dedupStep at hg
  by_cases hb : (extract_timestamp_and_body e.content).2 ∈ acc.map (fun g => g.body)
  · rw [if_pos hb] at hg
    obtain ⟨g0, hg0, rfl⟩ := List.mem_map.mp hg
    by_cases hgb : g0.body = (extract_timestamp_and_body e.content).2
    · rw [if_pos hgb]
      intro t ht
      simp only [List.mem_append] at ht
      rcases ht with ht | ht
      · exact hacc g0 hg0 t ht
      · exact tsList_digits e t ht
    · rw [if_neg hgb]
      exact hacc g0 hg0
  · rw [if_neg hb] at hg
    rcases List.mem_append.mp hg with hg2 | hg2
    · exact hacc g hg2
    · rcases List.mem_singleton.mp hg2 with rfl
      intro t ht
      exact tsList_digits e t ht

/-- Formatting succeeds on a list of digit strings. -/
theorem format_isSome (l : List String) (h : ∀ t ∈ l, isDigitStr t = true) :
    (format_timestamp_range l).isSome = true := by
  match l with
  | [] => rfl
  | [t] => rfl
  | a :: b :: r =>
    have hcond : (a :: b :: r).all (fun t => (pyInt t).isSome) = true := by
      rw [List.all_eq_true]
      intro t ht
      unfold pyInt
      rw [if_pos (h t ht)]
      rfl
    unfold format_timestamp_range
    rw [if_pos hcond]
    rfl

/-- C10: every timestamp the extractor returns is a nonempty digit
string, every timestamp stored in a deduplicated group is one too, and
the numeric sort inside the range formatter therefore never fails on
a list the pipeline built. -/
theorem C10_timestamps_safe :
    (∀ content ts body, extract_timestamp_and_body content = (some ts, body) →
        isDigitStr ts = true) ∧
    (∀ (entries : List Entry) (g : MergedEntry), g ∈ deduplicate_entries entries →
        ∀ t ∈ g.timestamps, isDigitStr t = true) ∧
    (∀ (entries : List Entry) (g : MergedEntry), g ∈ deduplicate_entries entries →
        (format_timestamp_range g.timestamps).isSome = true) := by
  have hdig : ∀ (entries : List Entry) (g : MergedEntry), g ∈ deduplicate_entries entries →
      ∀ t ∈ g.timestamps, isDigitStr t = true := by
    intro entries g hg
    rw [dedup_eq_fold] at hg
    exact dedupFold_pres (fun g => ∀ t ∈ g.timestamps, isDigitStr t = true)
      dedupStep_digits entries [] (by simp) g hg
  exact ⟨extract_timestamp_digits, hdig,
    fun entries g hg => format_isSome g.timestamps (hdig entries g hg)⟩

/-- Witness for C10: the three clauses at concrete pipeline data. -/
theorem C10_timestamps_safe_witness :
    isDigitStr "5" = true ∧
    (∀ t ∈ (MergedEntry.mk "ERROR" "ERROR: bar t:5>boom\n" "ERROR : barboom" ["5"] 0).timestamps,
      isDigitStr t = true) ∧
    (format_timestamp_range
      (MergedEntry.mk "ERROR" "ERROR: bar t:5>boom\n" "ERROR : barboom" ["5"] 0).timestamps).isSome
      = true := by
  refine ⟨?_, ?_, ?_⟩
  · exact C10_timestamps_safe.1 "ERROR: bar t:5>boom\n" "5" "ERROR : barboom" (by decide)
  · exact C10_timestamps_safe.2.1 [⟨"ERROR", "ERROR: bar t:5>boom\n"⟩] _ (by decide)
  · exact C10_timestamps_safe.2.2 [⟨"ERROR", "ERROR: bar t:5>boom\n"⟩] _ (by decide)

/-! ## C9: top-level control flow of main -/

/-- Result of one program run: exit code, error-stream lines, and the
output file content when a complete report was written. -/
structure MainResult where
  exitCode : Nat
  errOutput : List String
  written : Option String
deriving DecidableEq, Repr

/-- One report block for a group, one-based numbering, modelling the
body of the write loop of generate_report; none when the range
formatter fails there (the Python code would raise). -/
def entryBlock (i : Nat) (g : MergedEntry) : Option String :=
  match format_timestamp_range g.timestamps with
  | none => none
  | some ts =>
    some ("--- Entry " ++ toString i ++ " ---\n" ++ "Timestamp: " ++ ts ++ "\n" ++
      g.body ++ (if g.body.endsWith "\n" then "" else "\n") ++ "\n")

/-- The write loop of generate_report over the remaining groups. -/
def reportBlocks : Nat → List MergedEntry → Option String
  | _, [] => some ""
  | i, g :: gs =>
    match entryBlock i g with
    | none => none
    | some b =>
      match reportBlocks (i + 1) gs with
      | none => none
      | some r => some (b ++ r)

/-- Models generate_report as the complete report text; none when any
block fails, which pipeline data never produces. -/
def generate_report (entries : List MergedEntry) (srcName now : String) : Option String :=
  match reportBlocks 1 entries with
  | none => none
  | some blocks =>
    some ("=== Project Zomboid Server Log Filter Report ===\n" ++
      "Source: " ++ srcName ++ "\n" ++
      "Generated: " ++ now ++ "\n" ++
      "Unique entries found: " ++ toString entries.length ++ "\n" ++ "\n" ++
      blocks)

/-- Models main after argument parsing: the abstract input is the file
content when the path exists, none when it does not; prints to the
standard output stream are not modelled.  The failing report branch
models the uncaught exception path of the Python process; it is
unreachable on pipeline data. -/
def runMain (fileContents : Option String) (keywords : Option (List String))
    (pathStr srcName now : String) : MainResult :=
  match fileContents with
  | none => ⟨1, ["Error: Log file not found: " ++ pathStr], none⟩
  | some text =>
    match generate_report
        (deduplicate_entries ((parse_log_file text).filter
          (fun e => should_include_entry e keywords))) srcName now with
    | some rpt => ⟨0, [], some rpt⟩
    | none => ⟨1, ["ValueError"], none⟩

/-- Timestamps stored by deduplication are digit strings (helper shared
by the safety and control-flow arguments). -/
theorem dedup_timestamps_digits (entries : List Entry) (g : MergedEntry)
    (hg : g ∈ deduplicate_entries entries) : ∀ t ∈ g.timestamps, isDigitStr t = true := by
  rw [dedup_eq_fold] at hg
  exact dedupFold_pres (fun g => ∀ t ∈ g.timestamps, isDigitStr t = true)
    dedupStep_digits entries [] (by simp) g hg

/-- The write loop succeeds when every group formats. -/
theorem reportBlocks_total (gs : List MergedEntry)
    (h : ∀ g ∈ gs, (format_timestamp_range g.timestamps).isSome = true) :
    ∀ i, ∃ r, reportBlocks i gs = some r := by
  induction gs with
  | nil => intro i; exact ⟨"", rfl⟩
  | cons g gs ih =>
    intro i
    have hg := h g (by simp)
    cases hf : format_timestamp_range g.timestamps with
    | none => rw [hf] at hg; simp at hg
    | some ts =>
      obtain ⟨r, hr⟩ := ih (fun g0 hg0 => h g0 (by simp [hg0])) (i + 1)
      refine ⟨"--- Entry " ++ toString i ++ " ---\n" ++ "Timestamp: " ++ ts ++ "\n" ++
        g.body ++ (if g.body.endsWith "\n" then "" else "\n") ++ "\n" ++ r, ?_⟩
      unfold reportBlocks entryBlock
      rw [hf, hr]

/-- The report generator succeeds on deduplicated pipeline data. -/
theorem generate_report_total (entries : List Entry) (srcName now : String) :
    ∃ r, generate_report (deduplicate_entries entries) srcName now = some r := by
  have hfmt : ∀ g ∈ deduplicate_entries entries,
      (format_timestamp_range g.timestamps).isSome = true := fun g hg =>
    format_isSome g.timestamps (dedup_timestamps_digits entries g hg)
  obtain ⟨r, hr⟩ := reportBlocks_total (deduplicate_entries entries) hfmt 1
  refine ⟨"=== Project Zomboid Server Log Filter Report ===\n" ++
      "Source: " ++ srcName ++ "\n" ++
      "Generated: " ++ now ++ "\n" ++
      "Unique entries found: " ++ toString (deduplicate_entries entries).length ++
      "\n" ++ "\n" ++ r, ?_⟩
  unfold generate_report
  rw [hr]

/-- C9: a missing input path yields exit code one, a diagnostic on the
error stream and no output file; an existing input path yields exit
code zero, no error output, and a complete written report. -/
theorem C9_main_flow (fc : Option String) (kws : Option (List String))
    (pathStr srcName now : String) :
    (fc = none → runMain fc kws pathStr srcName now =
      ⟨1, ["Error: Log file not found: " ++ pathStr], none⟩) ∧
    (∀ text, fc = some text →
      (runMain fc kws pathStr srcName now).exitCode = 0 ∧
      (runMain fc kws pathStr srcName now).errOutput = [] ∧
      ∃ r, (runMain fc kws pathStr srcName now).written = some r) := by
  constructor
  · intro h
    subst h
    rfl
  · intro text h
    subst h
    obtain ⟨r, hr⟩ := generate_report_total
      ((parse_log_file text).filter (fun e => should_include_entry e kws)) srcName now
    have hrun : runMain (some text) kws pathStr srcName now =
        match generate_report (deduplicate_entries ((parse_log_file text).filter
          (fun e => should_include_entry e kws))) srcName now with
        | some rpt => ⟨0, [], some rpt⟩
        | none => ⟨1, ["ValueError"], none⟩ := rfl
    rw [hrun, hr]
    exact ⟨rfl, rfl, r, rfl⟩

/-- Witness for C9: both branches at concrete inputs. -/
theorem C9_main_flow_witness :
    runMain none none "p" "src" "now" =
      ⟨1, ["Error: Log file not found: p"], none⟩ ∧
    (runMain (some "ERROR: x t:1>y\n") none "p" "src" "now").exitCode = 0 := by
  constructor
  · exact (C9_main_flow none none "p" "src" "now").1 rfl
  · exact ((C9_main_flow (some "ERROR: x t:1>y\n") none "p" "src" "now").2
      "ERROR: x t:1>y\n" rfl).1

/-! ## C4: segmentation structure and record count -/

/-- Concatenation of a run of lines. -/
def joinAll : List String → String
  | [] => ""
  | s :: r => s ++ joinAll r

/-- Spec-side segmentation: lines before the first tag line are
dropped, and each record is a tag line joined verbatim with the run of
non-tag lines that follows it. -/
def specSegment : List String → List Entry
  | [] => []
  | l :: rest =>
    match matchEntryStart l with
    | none => specSegment rest
    | some tag =>
      ⟨tag, l ++ joinAll (rest.takeWhile (fun x => (matchEntryStart x).isNone))⟩ ::
        specSegment (rest.dropWhile (fun x => (matchEntryStart x).isNone))
termination_by lines => lines.length
decreasing_by
  · simp
  · have h := List.IsSuffix.length_le
      (List.dropWhile_suffix (l := rest) (fun x => (matchEntryStart x).isNone))
    simp
    omega

/-- One unfolding of the segmentation loop on a cons cell. -/
theorem parseLines_cons (line : String) (rest : List String) (cur : Option Entry) :
    parseLines (line :: rest) cur =
      match matchEntryStart line with
      | some tag =>
        match cur with
        | none => parseLines rest (some ⟨tag, line⟩)
        | some e => e :: parseLines rest (some ⟨tag, line⟩)
      | none =>
        match cur with
        | none => parseLines rest none
        | some e => parseLines rest (some ⟨e.type, e.content ++ line⟩) := rfl

/-- Loop equation: a tag line seals the open record. -/
theorem parseLines_tag_some (line : String) (rest : List String) (tag : String)
    (hl : matchEntryStart line = some tag) (t c : String) :
    parseLines (line :: rest) (some ⟨t, c⟩) = ⟨t, c⟩ :: parseLines rest (some ⟨tag, line⟩) := by
  rw [parseLines_cons, hl]

/-- Loop equation: a tag line opens the first record. -/
theorem parseLines_tag_none (line : String) (rest : List String) (tag : String)
    (hl : matchEntryStart line = some tag) :
    parseLines (line :: rest) none = parseLines rest (some ⟨tag, line⟩) := by
  rw [parseLines_cons, hl]

/-- Loop equation: a non-tag line extends the open record. -/
theorem parseLines_notag_some (line : String) (rest : List String)
    (hl : matchEntryStart line = none) (t c : String) :
    parseLines (line :: rest) (some ⟨t, c⟩) = parseLines rest (some ⟨t, c ++ line⟩) := by
  rw [parseLines_cons, hl]

/-- Loop equation: a non-tag line before the first record is dropped. -/
theorem parseLines_notag_none (line : String) (rest : List String)
    (hl : matchEntryStart line = none) :
    parseLines (line :: rest) none = parseLines rest none := by
  rw [parseLines_cons, hl]

/-- Spec segmentation equation on a tag line. -/
theorem specSegment_tag (l : String) (rest : List String) (tag : String)
    (hl : matchEntryStart l = some tag) :
    specSegment (l :: rest) =
      ⟨tag, l ++ joinAll (rest.takeWhile (fun x => (matchEntryStart x).isNone))⟩ ::
        specSegment (rest.dropWhile (fun x => (matchEntryStart x).isNone)) := by
  simp only [specSegment]
  rw [hl]

/-- Spec segmentation equation on a non-tag line. -/
theorem specSegment_notag (l : String) (rest : List String)
    (hl : matchEntryStart l = none) :
    specSegment (l :: rest) = specSegment rest := by
  simp only [specSegment]
  rw [hl]

/-- The segmentation loop with an open record: the record absorbs the
following run of non-tag lines, and the remaining lines segment on
their own. -/
theorem parseLines_some (ls : List String) :
    ∀ t c, parseLines ls (some ⟨t, c⟩) =
      ⟨t, c ++ joinAll (ls.takeWhile (fun x => (matchEntryStart x).isNone))⟩ ::
        specSegment (ls.dropWhile (fun x => (matchEntryStart x).isNone)) := by
  induction ls with
  | nil =>
    intro t c
    simp [parseLines, joinAll, specSegment, String.append_empty]
  | cons l rest ih =>
    intro t c
    cases hl : matchEntryStart l with
    | some tag =>
      have hfalse : (matchEntryStart l).isNone = false := by rw [hl]; rfl
      rw [parseLines_tag_some l rest tag hl t c, ih tag l,
        List.takeWhile_cons, List.dropWhile_cons, hfalse]
      simp only [Bool.false_eq_true, if_false, joinAll, String.append_empty]
      rw [specSegment_tag l rest tag hl]
    | none =>
      have htrue : (matchEntryStart l).isNone = true := by rw [hl]; rfl
      rw [parseLines_notag_some l rest hl t c, ih t (c ++ l),
        List.takeWhile_cons, List.dropWhile_cons, htrue]
      simp [joinAll, String.append_assoc]

/-- The segmentation loop with no open record is the spec-side
segmentation. -/
theorem parseLines_none (ls : List String) :
    parseLines ls none = specSegment ls := by
  induction ls with
  | nil => simp [parseLines, specSegment]
  | cons l rest ih =>
    cases hl : matchEntryStart l with
    | some tag =>
      rw [parseLines_tag_none l rest tag hl, parseLines_some rest tag l,
        specSegment_tag l rest tag hl]
    | none =>
      rw [parseLines_notag_none l rest hl, ih, specSegment_notag l rest hl]

/-- The number of spec-side records equals the number of tag lines,
by induction on a length bound. -/
theorem specSegment_length_le : ∀ (n : Nat) (ls : List String), ls.length ≤ n →
    (specSegment ls).length =
      (ls.filter (fun l => (matchEntryStart l).isSome)).length := by
  intro n
  induction n with
  | zero =>
    intro ls hls
    have hnil : ls = [] := List.eq_nil_of_length_eq_zero (Nat.le_zero.mp hls)
    subst hnil
    simp [specSegment]
  | succ n ih =>
    intro ls hls
    cases ls with
    | nil => simp [specSegment]
    | cons l rest =>
      have hrest : rest.length ≤ n := by
        simp only [List.length_cons] at hls
        omega
      cases hl : matchEntryStart l with
      | none =>
        have hnone : (matchEntryStart l).isSome = false := by rw [hl]; rfl
        rw [specSegment_notag l rest hl, List.filter_cons, hnone]
        simp only [Bool.false_eq_true, if_false]
        exact ih rest hrest
      | some tag =>
        have hsome : (matchEntryStart l).isSome = true := by rw [hl]; rfl
        rw [specSegment_tag l rest tag hl, List.filter_cons, hsome]
        simp only [if_true, List.length_cons]
        have hsplit : rest.filter (fun x => (matchEntryStart x).isSome)
            = (rest.dropWhile (fun x => (matchEntryStart x).isNone)).filter
                (fun x => (matchEntryStart x).isSome) := by
          conv_lhs =>
            rw [← List.takeWhile_append_dropWhile (fun x => (matchEntryStart x).isNone) rest]
          rw [List.filter_append]
          have hnilf : (rest.takeWhile (fun x => (matchEntryStart x).isNone)).filter
              (fun x => (matchEntryStart x).isSome) = [] := by
            rw [List.filter_eq_nil_iff]
            intro a ha
            have hna := List.mem_takeWhile_imp ha
            cases hma : matchEntryStart a with
            | some t => rw [hma] at hna; simp at hna
            | none => simp [hma]
          rw [hnilf, List.nil_append]
        rw [hsplit]
        have hlen := ih (rest.dropWhile (fun x => (matchEntryStart x).isNone))
          (le_trans (List.IsSuffix.length_le (List.dropWhile_suffix _)) hrest)
        omega

/-- C4: the segmenter equals the spec-side segmentation, so the number
of records equals the number of tag lines, lines before the first tag
line are dropped, and every non-tag line is appended verbatim to the
most recently opened record. -/
theorem C4_segmentation (text : String) :
    parse_log_file text = specSegment (splitLinesKeepEnds text) ∧
    (parse_log_file text).length =
      ((splitLinesKeepEnds text).filter (fun l => (matchEntryStart l).isSome)).length := by
  have h := parseLines_none (splitLinesKeepEnds text)
  refine ⟨h, ?_⟩
  rw [show parse_log_file text = parseLines (splitLinesKeepEnds text) none from rfl, h]
  exact specSegment_length_le (splitLinesKeepEnds text).length _ (le_refl _)

/-! ## C6: deduplication applied to its own output -/

/-- The canonical body the extractor returns is always stripped. -/
theorem extract_snd_stripped (c : String) :
    pyStrip (extract_timestamp_and_body c).2 = (extract_timestamp_and_body c).2 := by
  unfold extract_timestamp_and_body
  simp only []
  cases hm : matchTimestampLine (splitFirstLine c).1.toList with
  | none => exact pyStrip_idem c
  | some q =>
    obtain ⟨a, b, c2, d⟩ := q
    exact pyStrip_idem _

/-- A record without a timestamp keeps its stripped content as body. -/
theorem extract_none_snd (c : String) (h : (extract_timestamp_and_body c).1 = none) :
    (extract_timestamp_and_body c).2 = pyStrip c := by
  unfold extract_timestamp_and_body at h ⊢
  simp only [] at h ⊢
  cases hm : matchTimestampLine (splitFirstLine c).1.toList with
  | none => rfl
  | some q =>
    obtain ⟨a, b, c2, d⟩ := q
    rw [hm] at h
    simp at h

/-- The deduplication step preserves strippedness of bodies. -/
theorem dedupStep_strip (acc : List MergedEntry) (e : Entry) (g : MergedEntry)
    (hg : g ∈ dedupStep acc e) (hacc : ∀ g0 ∈ acc, pyStrip g0.body = g0.body) :
    pyStrip g.body = g.body := by
  unfold dedupStep at hg
  by_cases hb : (extract_timestamp_and_body e.content).2 ∈ acc.map (fun g => g.body)
  · rw [if_pos hb] at hg
    obtain ⟨g0, hg0, rfl⟩ := List.mem_map.mp hg
    by_cases hgb : g0.body = (extract_timestamp_and_body e.content).2 <;>
      simp [hgb, hacc g0 hg0, extract_snd_stripped]
  · rw [if_neg hb] at hg
    rcases List.mem_append.mp hg with hg2 | hg2
    · exact hacc g hg2
    · rcases List.mem_singleton.mp hg2 with rfl
      exact extract_snd_stripped e.content

/-- Folding fresh records with pairwise-distinct, timestamp-free
bodies appends one new group per record, in order. -/
theorem dedupFold_fresh : ∀ (gs acc : List MergedEntry),
    (∀ g ∈ gs, g.body ∉ acc.map (fun g0 => g0.body)) →
    (gs.map (fun g => g.body)).Nodup →
    (∀ g ∈ gs, extract_timestamp_and_body g.body = (none, g.body)) →
    (∀ k (hk : k < gs.length), (gs.get ⟨k, hk⟩).first_index = acc.length + k) →
    (gs.map (fun g => Entry.mk g.type g.body)).foldl dedupStep acc =
      acc ++ gs.map (fun g => { g with content := g.body, timestamps := ([] : List String) }) := by
  intro gs
  induction gs with
  | nil =>
    intro acc _ _ _ _
    simp
  | cons g gs ih =>
    intro acc hdisj hnd hfresh hidx
    rw [List.map_cons, List.foldl_cons]
    have hex : extract_timestamp_and_body (Entry.mk g.type g.body).content = (none, g.body) :=
      hfresh g (by simp)
    have hstep : dedupStep acc (Entry.mk g.type g.body) =
        acc ++ [{ type := g.type, content := g.body, body := g.body,
                  timestamps := [], first_index := acc.length }] := by
      unfold dedupStep
      rw [hex]
      rw [if_neg (hdisj g (by simp))]
      simp [tsList]
    have hidx0 := hidx 0 (by simp)
    simp only [List.get_eq_getElem, List.getElem_cons_zero] at hidx0
    have hg0 :
        ({ type := g.type, content := g.body, body := g.body, timestamps := ([] : List String), first_index := acc.length } : MergedEntry)
          = { g with content := g.body, timestamps := ([] : List String) } := by
      simp [hidx0]
    rw [hstep, hg0]
    have hnd2 : (gs.map (fun g => g.body)).Nodup := (List.nodup_cons.mp (by simpa using hnd)).2
    have hheadnot : g.body ∉ gs.map (fun g => g.body) :=
      (List.nodup_cons.mp (by simpa using hnd)).1
    have harg1 : ∀ g0 ∈ gs, g0.body ∉
        (acc ++ [{ g with content := g.body, timestamps := ([] : List String) }]).map
          (fun g0 : MergedEntry => g0.body) := by
      intro g0 hg0m
      rw [List.map_append]
      intro hmem
      rcases List.mem_append.mp hmem with hmem2 | hmem2
      · exact hdisj g0 (by simp [hg0m]) hmem2
      · simp at hmem2
        exact hheadnot (hmem2 ▸ List.mem_map_of_mem (fun g => g.body) hg0m)
    have harg2 : ∀ k (hk : k < gs.length), (gs.get ⟨k, hk⟩).first_index =
        (acc ++ [{ g with content := g.body, timestamps := ([] : List String) }]).length + k := by
      intro k hk
      have hsucc := hidx (k + 1) (by simp; omega)
      simp only [List.get_eq_getElem, List.getElem_cons_succ] at hsucc
      simp only [List.get_eq_getElem]
      rw [hsucc]
      simp
      omega
    rw [ih _ harg1 hnd2 (fun g0 hg0 => hfresh g0 (by simp [hg0])) harg2]
    simp

/-- Positions determine ranks when the rank list is the range. -/
theorem fi_get_of_range (l : List MergedEntry)
    (h : l.map (fun g => g.first_index) = List.range l.length) :
    ∀ k (hk : k < l.length), (l.get ⟨k, hk⟩).first_index = k := by
  intro k hk
  have hk2 : k < (l.map (fun g => g.first_index)).length := by simpa using hk
  have h2 := List.getElem_of_eq h hk2
  simp only [List.getElem_map, List.getElem_range] at h2
  simpa using h2

/-- Counterexample to C6 as stated: a group read back as a fresh
record carries no timestamp, so re-running deduplication on the output
of a run that extracted a timestamp does not reproduce the groups. -/
theorem C6_counterexample :
    deduplicate_entries
        ((deduplicate_entries [⟨"ERROR", "ERROR: x t:1>y\n"⟩]).map
          (fun g => Entry.mk g.type g.body)) ≠
      deduplicate_entries [⟨"ERROR", "ERROR: x t:1>y\n"⟩] := by
  decide

/-- C6 amended: when no group canonical body itself matches the
timestamp grammar, re-running deduplication on the groups read back as
fresh records reproduces the groups with the same level, canonical
body and rank, but with empty timestamp lists, because a fresh record
carries no timestamp. -/
theorem C6_amended (entries : List Entry)
    (h : ∀ g ∈ deduplicate_entries entries, (extract_timestamp_and_body g.body).1 = none) :
    deduplicate_entries ((deduplicate_entries entries).map (fun g => Entry.mk g.type g.body)) =
      (deduplicate_entries entries).map
        (fun g => { g with content := g.body, timestamps := ([] : List String) }) := by
  have hstrip : ∀ g ∈ deduplicate_entries entries, pyStrip g.body = g.body := by
    intro g hg
    rw [dedup_eq_fold] at hg
    exact dedupFold_pres (fun g => pyStrip g.body = g.body) dedupStep_strip
      entries [] (by simp) g hg
  have hfresh : ∀ g ∈ deduplicate_entries entries,
      extract_timestamp_and_body g.body = (none, g.body) := by
    intro g hg
    have h1 := h g hg
    have h2 : (extract_timestamp_and_body g.body).2 = g.body :=
      (extract_none_snd g.body h1).trans (hstrip g hg)
    exact Prod.ext h1 h2
  have hnd : ((deduplicate_entries entries).map (fun g => g.body)).Nodup := by
    rw [dedup_eq_fold, dedupFold_bodies entries []]
    simp only [List.map_nil, List.nil_append]
    exact firstOccurAux_nodup _ _
  have hidx : (deduplicate_entries entries).map (fun g => g.first_index) =
      List.range (deduplicate_entries entries).length := by
    rw [dedup_eq_fold]
    exact dedupFold_idx entries [] (by simp)
  have hmain := dedupFold_fresh (deduplicate_entries entries) []
    (by simp) hnd hfresh
    (by
      intro k hk
      simp only [List.length_nil, Nat.zero_add]
      exact fi_get_of_range _ hidx k hk)
  have hout : deduplicate_entries
      ((deduplicate_entries entries).map (fun g => Entry.mk g.type g.body)) =
      sortKeyed (fun g => g.first_index)
        (((deduplicate_entries entries).map (fun g => Entry.mk g.type g.body)).foldl
          dedupStep []) := rfl
  rw [hout, hmain, List.nil_append]
  apply sortKeyed_eq_self
  have hmap2 : (((deduplicate_entries entries).map
      (fun g => { g with content := g.body, timestamps := ([] : List String) })).map
        (fun g => g.first_index)) = List.range (deduplicate_entries entries).length := by
    rw [List.map_map]
    have hcomp : ((fun g : MergedEntry => g.first_index) ∘
        (fun g : MergedEntry => { g with content := g.body, timestamps := ([] : List String) }))
          = fun g : MergedEntry => g.first_index := by
      funext g
      rfl
    rw [hcomp, hidx]
  have hlt : (((deduplicate_entries entries).map
      (fun g => { g with content := g.body, timestamps := ([] : List String) })).map
        (fun g => g.first_index)).Pairwise (· < ·) := by
    rw [hmap2]
    exact List.pairwise_lt_range _
  rw [List.pairwise_map] at hlt
  exact hlt.imp le_of_lt

/-- Witness for the amended C6: a run whose single group has no
timestamp re-runs to the same group with an empty timestamp list. -/
theorem C6_amended_witness :
    deduplicate_entries
        ((deduplicate_entries [⟨"ERROR", "ERROR: boom\n"⟩]).map
          (fun g => Entry.mk g.type g.body)) =
      (deduplicate_entries [⟨"ERROR", "ERROR: boom\n"⟩]).map
        (fun g => { g with content := g.body, timestamps := ([] : List String) }) :=
  C6_amended [⟨"ERROR", "ERROR: boom\n"⟩] (by decide)
